import Mathlib

/-!
Verification of the PileOMeth per-base classification-and-aggregation engine
against its interface header (PileOMeth.h).  The header declares the data
structures (bedRegion, bedRegions, Config, strandMeth) and the operations
(isCpG/isCHG/isCHH/isCpH, getStrand, posOverlapsBED, sortBED, parseBED,
updateMetrics); the implementation files (common.c, bed.c, pileup.c) are not
part of the available sources, so each operation is modelled from the design
specification, as noted on every definition.
-/

namespace PileOMeth

/-! ## Context Classifier (common.c: isCpG / isCHG / isCHH / isCpH) -/

/-- True for the base character C (either case). -/
def isCbase (c : Char) : Bool := c == 'C' || c == 'c'

/-- True for the base character G (either case). -/
def isGbase (c : Char) : Bool := c == 'G' || c == 'g'

/-- True for an H base, i.e. one of A, C, T (either case). -/
def isHbase (c : Char) : Bool :=
  c == 'A' || c == 'a' || c == 'C' || c == 'c' || c == 'T' || c == 't'

/-- True for a base whose complement is an H base, i.e. one of T, G, A. -/
def isHrcBase (c : Char) : Bool :=
  c == 'T' || c == 't' || c == 'G' || c == 'g' || c == 'A' || c == 'a'

/-- The base of the reference window at an offset (a placeholder outside). -/
def nthBase (seq : List Char) (i : Nat) : Char := seq.getD i 'N'

/-- Modelled from the spec: `isCpG` of common.c (body not among the sources).
Offset base is C and the next base is G, or offset base is G and the previous
base is C; adjacent bases outside the window make the predicate false. -/
def isCpG (seq : List Char) (pos seqlen : Nat) : Bool :=
  if isCbase (nthBase seq pos) then
    decide (pos + 1 < seqlen) && isGbase (nthBase seq (pos + 1))
  else if isGbase (nthBase seq pos) then
    decide (1 ≤ pos) && isCbase (nthBase seq (pos - 1))
  else false

/-- Modelled from the spec: `isCHG` of common.c (body not among the sources).
Three-base motif C-H-G on the top strand, or its reverse complement ending at
the offset (G at the offset, H-complement before it, C two before it);
required bases outside the window make the predicate false. -/
def isCHG (seq : List Char) (pos seqlen : Nat) : Bool :=
  if isCbase (nthBase seq pos) then
    decide (pos + 2 < seqlen) && isHbase (nthBase seq (pos + 1)) &&
      isGbase (nthBase seq (pos + 2))
  else if isGbase (nthBase seq pos) then
    decide (2 ≤ pos) && isHrcBase (nthBase seq (pos - 1)) &&
      isCbase (nthBase seq (pos - 2))
  else false

/-- Modelled from the spec: `isCHH` of common.c (body not among the sources).
Three-base motif C-H-H on either strand; required bases outside the window
make the predicate false. -/
def isCHH (seq : List Char) (pos seqlen : Nat) : Bool :=
  if isCbase (nthBase seq pos) then
    decide (pos + 2 < seqlen) && isHbase (nthBase seq (pos + 1)) &&
      isHbase (nthBase seq (pos + 2))
  else if isGbase (nthBase seq pos) then
    decide (2 ≤ pos) && isHrcBase (nthBase seq (pos - 1)) &&
      isHrcBase (nthBase seq (pos - 2))
  else false

/-- Modelled from the spec: `isCpH` of common.c (body not among the sources).
Any non-CpG cytosine context: a cytosine (on either strand) whose following
two-base context is H-G or H-H (respectively the reverse-complement patterns
looking backwards from a G). -/
def isCpH (seq : List Char) (pos seqlen : Nat) : Bool :=
  if isCbase (nthBase seq pos) then
    decide (pos + 2 < seqlen) && isHbase (nthBase seq (pos + 1)) &&
      (isGbase (nthBase seq (pos + 2)) || isHbase (nthBase seq (pos + 2)))
  else if isGbase (nthBase seq pos) then
    decide (2 ≤ pos) && isHrcBase (nthBase seq (pos - 1)) &&
      (isCbase (nthBase seq (pos - 2)) || isHrcBase (nthBase seq (pos - 2)))
  else false

/-- C1: for every reference window, offset and window length, `isCpH` holds
exactly when `isCHG` or `isCHH` holds. -/
theorem isCpH_eq_isCHG_or_isCHH (seq : List Char) (pos seqlen : Nat) :
    isCpH seq pos seqlen = (isCHG seq pos seqlen || isCHH seq pos seqlen) := by
  unfold isCpH isCHG isCHH
  by_cases hC : isCbase (nthBase seq pos) = true
  · simp only [hC, if_true]
    cases decide (pos + 2 < seqlen) <;>
      cases isHbase (nthBase seq (pos + 1)) <;>
        cases isGbase (nthBase seq (pos + 2)) <;>
          cases isHbase (nthBase seq (pos + 2)) <;> rfl
  · simp only [Bool.not_eq_true] at hC
    simp only [hC, Bool.false_eq_true, if_false]
    by_cases hG : isGbase (nthBase seq pos) = true
    · simp only [hG, if_true]
      cases decide (2 ≤ pos) <;>
        cases isHrcBase (nthBase seq (pos - 1)) <;>
          cases isCbase (nthBase seq (pos - 2)) <;>
            cases isHrcBase (nthBase seq (pos - 2)) <;> rfl
    · simp only [Bool.not_eq_true] at hG
      simp only [hG, Bool.false_eq_true, if_false, Bool.or_self]

/-- C3: when the bases a motif requires sit at offsets at or beyond the
window length, every context predicate answers false.  For a cytosine at the
offset, CpG needs offset+1 inside the window and CHG/CHH/CpH need offset+2
inside it; when the window ends before that, all four return false. -/
theorem context_boundary_false (seq : List Char) (pos seqlen : Nat)
    (hC : isCbase (nthBase seq pos) = true) :
    (seqlen ≤ pos + 1 → isCpG seq pos seqlen = false) ∧
    (seqlen ≤ pos + 2 →
      isCHG seq pos seqlen = false ∧ isCHH seq pos seqlen = false ∧
        isCpH seq pos seqlen = false) := by
  constructor
  · intro hlen
    have hd : (pos + 1 < seqlen) = False := by
      simp only [eq_iff_iff, iff_false]; omega
    simp [isCpG, hC, hd]
  · intro hlen
    have hd : (pos + 2 < seqlen) = False := by
      simp only [eq_iff_iff, iff_false]; omega
    refine ⟨?_, ?_, ?_⟩ <;> simp [isCHG, isCHH, isCpH, hC, hd]

/-- Witness for `context_boundary_false` at the one-base window `['C']`. -/
theorem context_boundary_false_witness :
    isCpG ['C'] 0 1 = false ∧ isCHG ['C'] 0 1 = false ∧
      isCHH ['C'] 0 1 = false ∧ isCpH ['C'] 0 1 = false :=
  ⟨(context_boundary_false ['C'] 0 1 (by decide)).1 (by decide),
   (context_boundary_false ['C'] 0 1 (by decide)).2 (by decide)⟩

/-! ## Strand Classifier (common.c: getStrand) -/

/-- Value of the XG auxiliary tag written by Bison/Bismark: the converted
genome the alignment matched (CT for the C-to-T converted top strand, GA for
the G-to-A converted bottom strand). -/
inductive XGval where
  | CT : XGval
  | GA : XGval
deriving DecidableEq

/-- The parts of a bam1_t alignment record that strand classification reads:
the paired, reverse-complemented and second-segment flag bits, and the
optional XG auxiliary tag. -/
structure bam1 where
  paired : Bool
  reversed : Bool
  read2 : Bool
  xg : Option XGval
deriving DecidableEq

/-- Whether the record is the second segment of a pair; unpaired records are
treated as first-segment. -/
def secondInPair (b : bam1) : Bool := b.paired && b.read2

/-- Modelled from the spec: the fixed XG decode table of getStrand in
common.c (body not among the sources).  The tag together with segment number
and orientation selects the class: on the CT genome a first-segment forward
or second-segment reverse alignment is original top (1) and the other two
combinations are complementary to the original top (3); on the GA genome a
first-segment reverse or second-segment forward alignment is original bottom
(2) and the other two are complementary to the original bottom (4). -/
def decodeXG (t : XGval) (second rev : Bool) : Nat :=
  match t with
  | XGval.CT => if second == rev then 1 else 3
  | XGval.GA => if second == rev then 4 else 2

/-- Modelled from the spec: `getStrand` of common.c (body not among the
sources).  With an XG tag present the fixed lookup decides among the four
classes; without it, the exclusive-or of the reverse-complemented flag with
the effective second-segment flag chooses original top (1) or original
bottom (2). -/
def getStrand (b : bam1) : Nat :=
  match b.xg with
  | some t => decodeXG t (secondInPair b) b.reversed
  | none => if xor b.reversed (secondInPair b) then 2 else 1

/-- Whether the record's XG tag and flags form a combination a directional
library produces: on the CT genome the read maps forward as first segment and
reverse as second; on the GA genome the opposite. -/
def directionalOrigin (b : bam1) : Bool :=
  match b.xg with
  | some XGval.CT => secondInPair b == b.reversed
  | some XGval.GA => !(secondInPair b == b.reversed)
  | none => false

/-- C2: `getStrand` is total with range {1,2,3,4} on every record, and when
the XG tag and flags form a directional-library combination the result is
original top (1) or original bottom (2), never 3 or 4. -/
theorem getStrand_total_and_directional (b : bam1) :
    (getStrand b = 1 ∨ getStrand b = 2 ∨ getStrand b = 3 ∨ getStrand b = 4) ∧
    (directionalOrigin b = true → getStrand b = 1 ∨ getStrand b = 2) := by
  rcases b with ⟨p, r, r2, xg⟩
  rcases xg with _ | t
  · cases p <;> cases r <;> cases r2 <;> exact ⟨by decide, by decide⟩
  · cases t <;> cases p <;> cases r <;> cases r2 <;> exact ⟨by decide, by decide⟩

/-- Witness for `getStrand_total_and_directional`: an unpaired forward read
carrying XG:CT is a directional combination and classifies as original
top. -/
theorem getStrand_total_and_directional_witness :
    directionalOrigin ⟨false, false, false, some XGval.CT⟩ = true ∧
    (getStrand ⟨false, false, false, some XGval.CT⟩ = 1 ∨
      getStrand ⟨false, false, false, some XGval.CT⟩ = 2) :=
  ⟨by decide,
   (getStrand_total_and_directional ⟨false, false, false, some XGval.CT⟩).2
     (by decide)⟩

/-- C4: on a record with no XG tag, `getStrand` answers only original top (1)
or original bottom (2), and the choice is the exclusive-or of the reversed
flag with the effective second-segment flag (unpaired treated as
first-segment): OB exactly when the exclusive-or is set. -/
theorem getStrand_noTag_fallback (b : bam1) (h : b.xg = none) :
    (getStrand b = 1 ∨ getStrand b = 2) ∧
    (getStrand b = 2 ↔ xor b.reversed (secondInPair b) = true) := by
  rcases b with ⟨p, r, r2, xg⟩
  cases xg
  · cases p <;> cases r <;> cases r2 <;> exact ⟨by decide, by decide⟩
  · cases h

/-- Witness for `getStrand_noTag_fallback`: a paired, reversed, first-segment
read with no tag classifies as original bottom. -/
theorem getStrand_noTag_fallback_witness :
    (getStrand ⟨true, true, false, none⟩ = 1 ∨
      getStrand ⟨true, true, false, none⟩ = 2) ∧
    (getStrand ⟨true, true, false, none⟩ = 2 ↔
      xor (true : Bool) (secondInPair ⟨true, true, false, none⟩) = true) :=
  getStrand_noTag_fallback ⟨true, true, false, none⟩ rfl

/-! ## Interval Index (bed.c: posOverlapsBED, sortBED, parseBED) -/

/-- One region of a BED file (PileOMeth.h): chromosome id, 0-based inclusive
start, exclusive end (named `stop` here), and strand tag (0 any, 1 top,
2 bottom).  All four fields are int32_t in the header. -/
structure bedRegion where
  tid : Int
  start : Int
  stop : Int
  strand : Int
deriving DecidableEq

/-- Whether a region contains a position on a chromosome: same chromosome and
start ≤ pos < stop (half-open interval). -/
def regionContains (tid pos : Int) (r : bedRegion) : Bool :=
  decide (r.tid = tid) && decide (r.start ≤ pos) && decide (pos < r.stop)

/-- Modelled from the spec: `posOverlapsBED` of bed.c (body not among the
sources).  The search is seeded at the hint index to avoid re-scanning from
the start, so the verdict is whether any region at or after the hint contains
the position. -/
def posOverlapsBED (tid pos : Int) (regions : List bedRegion)
    (idxBED : Nat) : Bool :=
  (regions.drop idxBED).any (regionContains tid pos)

/-- The sort order of the finalized Region Set: ascending by chromosome id,
ties broken by ascending start. -/
def bedLE (a b : bedRegion) : Bool :=
  decide (a.tid < b.tid) || (decide (a.tid = b.tid) && decide (a.start ≤ b.start))

/-- Insert a region into a list sorted by `bedLE`, keeping it sorted. -/
def insertReg (r : bedRegion) : List bedRegion → List bedRegion
  | [] => [r]
  | x :: xs => if bedLE r x then r :: x :: xs else x :: insertReg r xs

/-- Modelled from the spec: `sortBED` of bed.c (body not among the sources).
Sorts the Region Set by (chromosomeId, start) ascending. -/
def sortBED : List bedRegion → List bedRegion
  | [] => []
  | x :: xs => insertReg x (sortBED xs)

/-- One raw line of a BED file: a chromosome name (coded as a number), start
and end coordinates and a strand code, before name resolution and clamping. -/
structure bedLine where
  chrom : Nat
  bstart : Int
  bend : Int
  bstrand : Int
deriving DecidableEq

/-- Resolve a chromosome name against the alignment header's chromosome
table (name codes paired with lengths, indexed by chromosome id). -/
def lookupTid (hdr : List (Nat × Int)) (nm : Nat) : Option Nat :=
  List.findIdx? (fun c => c.1 == nm) hdr

/-- The length of a chromosome in the header table. -/
def chromLen (hdr : List (Nat × Int)) (tid : Nat) : Int :=
  (hdr.getD tid (0, 0)).2

/-- Modelled from the spec: how `parseBED` of bed.c (body not among the
sources) turns one raw line into a region.  The chromosome name is matched
against the header's table; out-of-bound coordinates are clamped to the
chromosome bounds rather than rejected; a line whose clamped interval is
empty produces no region. -/
def parseLine (hdr : List (Nat × Int)) (ln : bedLine) : Option bedRegion :=
  match lookupTid hdr ln.chrom with
  | none => none
  | some tid =>
    let len := chromLen hdr tid
    let s := max 0 (min ln.bstart len)
    let e := max 0 (min ln.bend len)
    if s < e then some ⟨Int.ofNat tid, s, e, ln.bstrand⟩ else none

/-- Modelled from the spec: `parseBED` of bed.c (body not among the sources),
restricted to the coordinate handling: every resolvable line becomes one
clamped region. -/
def parseBED (lines : List bedLine) (hdr : List (Nat × Int)) :
    List bedRegion :=
  lines.filterMap (parseLine hdr)

/-- The region order is transitive. -/
theorem bedLE_trans (a b c : bedRegion) (hab : bedLE a b = true)
    (hbc : bedLE b c = true) : bedLE a c = true := by
  simp only [bedLE, Bool.or_eq_true, Bool.and_eq_true, decide_eq_true_eq]
    at hab hbc ⊢
  omega

/-- The region order is total. -/
theorem bedLE_total (a b : bedRegion) : (bedLE a b || bedLE b a) = true := by
  simp only [bedLE, Bool.or_eq_true, Bool.and_eq_true, decide_eq_true_eq]
  omega

/-- A region produced from one raw line satisfies the clamping bounds. -/
theorem parseLine_bounds (hdr : List (Nat × Int)) (ln : bedLine)
    (r : bedRegion) (h : parseLine hdr ln = some r) :
    0 ≤ r.start ∧ r.start < r.stop ∧ r.stop ≤ chromLen hdr r.tid.toNat ∧
      0 ≤ r.tid := by
  unfold parseLine at h
  cases hlk : lookupTid hdr ln.chrom with
  | none => rw [hlk] at h; cases h
  | some tid =>
    rw [hlk] at h
    simp only [] at h
    split at h
    · cases h
      simp only [Int.ofNat_eq_natCast, Int.toNat_natCast]
      refine ⟨le_max_left 0 _, by omega, by omega, by omega⟩
    · cases h

/-- Membership in an insertion is membership in the parts. -/
theorem mem_insertReg (y r : bedRegion) (l : List bedRegion) :
    y ∈ insertReg r l ↔ y = r ∨ y ∈ l := by
  induction l with
  | nil => simp [insertReg]
  | cons x xs ih =>
    simp only [insertReg]
    split
    · simp [List.mem_cons]
    · simp only [List.mem_cons, ih]
      tauto

/-- Inserting into a `bedLE`-sorted list keeps it sorted. -/
theorem pairwise_insertReg (r : bedRegion) (l : List bedRegion)
    (hl : List.Pairwise (fun a b => bedLE a b = true) l) :
    List.Pairwise (fun a b => bedLE a b = true) (insertReg r l) := by
  induction l with
  | nil => simp [insertReg]
  | cons x xs ih =>
    rcases List.pairwise_cons.mp hl with ⟨hx, hxs⟩
    simp only [insertReg]
    split
    case isTrue hrx =>
      refine List.pairwise_cons.mpr ⟨?_, hl⟩
      intro y hy
      rcases List.mem_cons.mp hy with rfl | hy'
      · exact hrx
      · exact bedLE_trans r x y hrx (hx y hy')
    case isFalse hrx =>
      have hxr : bedLE x r = true := by
        have htot := bedLE_total r x
        simp only [Bool.or_eq_true] at htot
        tauto
      refine List.pairwise_cons.mpr ⟨?_, ih hxs⟩
      intro y hy
      rcases (mem_insertReg y r xs).mp hy with rfl | hy'
      · exact hxr
      · exact hx y hy'

/-- `sortBED` permutes but never invents or drops regions. -/
theorem mem_sortBED (y : bedRegion) (l : List bedRegion) :
    y ∈ sortBED l ↔ y ∈ l := by
  induction l with
  | nil => simp [sortBED]
  | cons x xs ih =>
    simp only [sortBED, mem_insertReg, List.mem_cons, ih]

/-- `sortBED` sorts by (chromosomeId, start) ascending. -/
theorem sortBED_sorted (l : List bedRegion) :
    List.Pairwise (fun a b => bedLE a b = true) (sortBED l) := by
  induction l with
  | nil => simp [sortBED]
  | cons x xs ih => exact pairwise_insertReg x (sortBED xs) ih

/-- C9: the Region Set built by `parseBED` and finalized by `sortBED` is
globally sorted ascending by (chromosomeId, start), and every region in it
has 0 ≤ start < stop with stop clamped to the chromosome length. -/
theorem parseBED_sortBED_finalized (lines : List bedLine)
    (hdr : List (Nat × Int)) :
    List.Pairwise (fun a b => bedLE a b = true) (sortBED (parseBED lines hdr)) ∧
    ∀ r ∈ sortBED (parseBED lines hdr),
      0 ≤ r.start ∧ r.start < r.stop ∧ r.stop ≤ chromLen hdr r.tid.toNat ∧
        0 ≤ r.tid := by
  constructor
  · exact sortBED_sorted (parseBED lines hdr)
  · intro r hr
    have hr' : r ∈ parseBED lines hdr :=
      (mem_sortBED r (parseBED lines hdr)).mp hr
    rcases List.mem_filterMap.mp hr' with ⟨ln, _, hf⟩
    exact parseLine_bounds hdr ln r hf

/-- Witness for `parseBED_sortBED_finalized`: one raw line with coordinates
sticking out on both sides of a length-10 chromosome yields the clamped
region [0, 10). -/
theorem parseBED_sortBED_finalized_witness :
    List.Pairwise (fun a b => bedLE a b = true)
      (sortBED (parseBED [⟨5, -3, 100, 0⟩] [(5, 10)])) ∧
    (0 ≤ (⟨0, 0, 10, 0⟩ : bedRegion).start ∧
      (⟨0, 0, 10, 0⟩ : bedRegion).start < (⟨0, 0, 10, 0⟩ : bedRegion).stop ∧
      (⟨0, 0, 10, 0⟩ : bedRegion).stop ≤
        chromLen [(5, 10)] (⟨0, 0, 10, 0⟩ : bedRegion).tid.toNat ∧
      0 ≤ (⟨0, 0, 10, 0⟩ : bedRegion).tid) :=
  ⟨(parseBED_sortBED_finalized [⟨5, -3, 100, 0⟩] [(5, 10)]).1,
   (parseBED_sortBED_finalized [⟨5, -3, 100, 0⟩] [(5, 10)]).2
     ⟨0, 0, 10, 0⟩ (by decide)⟩

/-- C8: membership is half-open.  A region with a nonempty interval contains
its own start, and no region contains its own end. -/
theorem bed_halfOpen (r : bedRegion) :
    (r.start < r.stop → posOverlapsBED r.tid r.start [r] 0 = true) ∧
    posOverlapsBED r.tid r.stop [r] 0 = false := by
  constructor
  · intro hlt
    simp [posOverlapsBED, regionContains, hlt, le_refl]
  · simp [posOverlapsBED, regionContains]

/-- Witness for `bed_halfOpen` on the region [3, 7) of chromosome 0. -/
theorem bed_halfOpen_witness :
    posOverlapsBED 0 3 [⟨0, 3, 7, 0⟩] 0 = true ∧
    posOverlapsBED 0 7 [⟨0, 3, 7, 0⟩] 0 = false :=
  ⟨(bed_halfOpen ⟨0, 3, 7, 0⟩).1 (by decide), (bed_halfOpen ⟨0, 3, 7, 0⟩).2⟩

/-- C7 fails as stated: on the finalized one-region set {[0, 10) on
chromosome 0}, position 5 overlaps with hint 0 but not with hint 1 — a hint
past the containing region changes the verdict. -/
theorem posOverlapsBED_hint_counterexample :
    posOverlapsBED 0 5 [⟨0, 0, 10, 0⟩] 0 = true ∧
    posOverlapsBED 0 5 [⟨0, 0, 10, 0⟩] 1 = false ∧
    List.Pairwise (fun a b => bedLE a b = true) [(⟨0, 0, 10, 0⟩ : bedRegion)] := by
  refine ⟨by decide, by decide, ?_⟩
  simp

/-- C7 amended: the verdict with hint h equals the verdict with hint 0
whenever no region before index h contains the position — the situation the
sequential sweep guarantees; the hint then affects only where the search
starts, never the result. -/
theorem posOverlapsBED_hint_agrees (tid pos : Int) (regions : List bedRegion)
    (h : Nat)
    (hskip : ∀ r ∈ regions.take h, regionContains tid pos r = false) :
    posOverlapsBED tid pos regions h = posOverlapsBED tid pos regions 0 := by
  unfold posOverlapsBED
  rw [List.drop_zero]
  have htake : (regions.take h).any (regionContains tid pos) = false := by
    simp only [List.any_eq_false]
    intro r hr
    simp [hskip r hr]
  calc (regions.drop h).any (regionContains tid pos)
      = ((regions.take h).any (regionContains tid pos) ||
          (regions.drop h).any (regionContains tid pos)) := by
        rw [htake, Bool.false_or]
    _ = (regions.take h ++ regions.drop h).any (regionContains tid pos) :=
        (List.any_append).symm
    _ = regions.any (regionContains tid pos) := by
        rw [List.take_append_drop]

/-- Witness for `posOverlapsBED_hint_agrees`: with two regions and the first
one wholly before position 25, hint 1 and hint 0 agree. -/
theorem posOverlapsBED_hint_agrees_witness :
    posOverlapsBED 0 25 [⟨0, 0, 10, 0⟩, ⟨0, 20, 30, 0⟩] 1 =
      posOverlapsBED 0 25 [⟨0, 0, 10, 0⟩, ⟨0, 20, 30, 0⟩] 0 :=
  posOverlapsBED_hint_agrees 0 25 [⟨0, 0, 10, 0⟩, ⟨0, 20, 30, 0⟩] 1 (by decide)

/-! ## Metrics Aggregator (updateMetrics and the pileup loop) -/

/-- One admitted base call of a pileup column: the strand class its read was
assigned (1 OT, 2 OB, 3 CTOT, 4 CTOB) and its converted-base verdict
(some true methylated, some false unmethylated, none ignored). -/
structure PileRead where
  strand : Nat
  call : Option Bool
deriving DecidableEq

/-- The depth and merge fields of the Config structure (PileOMeth.h) that the
aggregation policy reads. -/
structure MConfig where
  maxDepth : Nat
  minDepth : Nat
  merge : Bool
deriving DecidableEq

/-- Modelled from the spec: the maximum-depth policy of the aggregation loop
(updateMetrics and its caller are not among the sources) — reads beyond the
cap are ignored under a first-N policy. -/
def admitted (cfg : MConfig) (reads : List PileRead) : List PileRead :=
  reads.take cfg.maxDepth

/-- Modelled from the spec: the minimum-depth policy — a column is emitted
only when its admitted depth reaches the configured minimum. -/
def emitted (cfg : MConfig) (reads : List PileRead) : Bool :=
  decide (cfg.minDepth ≤ (admitted cfg reads).length)

/-- How many columns of a stream the aggregator emits. -/
def emittedCount (cfg : MConfig) (cols : List (List PileRead)) : Nat :=
  cols.countP (emitted cfg)

/-- Methylated observations a column contributes to one strand bucket. -/
def colMeth (cfg : MConfig) (s : Nat) (reads : List PileRead) : Nat :=
  (admitted cfg reads).countP
    (fun r => decide (r.strand = s) && decide (r.call = some true))

/-- Unmethylated observations a column contributes to one strand bucket. -/
def colUnmeth (cfg : MConfig) (s : Nat) (reads : List PileRead) : Nat :=
  (admitted cfg reads).countP
    (fun r => decide (r.strand = s) && decide (r.call = some false))

/-- Modelled from the spec: the merge policy at a CpG column — with merge
enabled the OT (1) and OB (2) observations land in one combined bucket. -/
def mergedCpGMeth (cfg : MConfig) (reads : List PileRead) : Nat :=
  (admitted cfg reads).countP
    (fun r => (decide (r.strand = 1) || decide (r.strand = 2)) &&
      decide (r.call = some true))

/-- The unmethylated half of the combined CpG bucket. -/
def mergedCpGUnmeth (cfg : MConfig) (reads : List PileRead) : Nat :=
  (admitted cfg reads).countP
    (fun r => (decide (r.strand = 1) || decide (r.strand = 2)) &&
      decide (r.call = some false))

/-- Total (methylated plus unmethylated) observations of a column. -/
def colTotal (cfg : MConfig) (reads : List PileRead) : Nat :=
  (admitted cfg reads).countP (fun r => r.call.isSome)

/-- Counting the OT-or-OB reads with a given call splits into the OT count
plus the OB count, the two strands being mutually exclusive. -/
theorem countP_strand_split (v : Option Bool) (rs : List PileRead) :
    rs.countP (fun r => (decide (r.strand = 1) || decide (r.strand = 2)) &&
        decide (r.call = v)) =
      rs.countP (fun r => decide (r.strand = 1) && decide (r.call = v)) +
        rs.countP (fun r => decide (r.strand = 2) && decide (r.call = v)) := by
  induction rs with
  | nil => rfl
  | cons a l ih =>
    simp only [List.countP_cons, ih]
    by_cases h1 : a.strand = 1 <;> by_cases h2 : a.strand = 2 <;>
      by_cases hv : a.call = v <;> simp [h1, h2, hv] <;> omega

/-- C5: at a CpG column, the combined bucket a merge-enabled run emits equals
the sum of the OT and OB per-strand counts a merge-disabled run emits, for
methylated and unmethylated observations alike, and the two runs emit the
same columns. -/
theorem merge_totals_eq_strand_sums (mxD mnD : Nat) (reads : List PileRead) :
    mergedCpGMeth ⟨mxD, mnD, true⟩ reads =
      colMeth ⟨mxD, mnD, false⟩ 1 reads + colMeth ⟨mxD, mnD, false⟩ 2 reads ∧
    mergedCpGUnmeth ⟨mxD, mnD, true⟩ reads =
      colUnmeth ⟨mxD, mnD, false⟩ 1 reads +
        colUnmeth ⟨mxD, mnD, false⟩ 2 reads ∧
    emitted ⟨mxD, mnD, true⟩ reads = emitted ⟨mxD, mnD, false⟩ reads :=
  ⟨countP_strand_split (some true) (reads.take mxD),
   countP_strand_split (some false) (reads.take mxD), rfl⟩

/-- A count over a prefix never exceeds the count over the whole list. -/
theorem countP_take_le (p : PileRead → Bool) (n : Nat)
    (l : List PileRead) : (l.take n).countP p ≤ l.countP p := by
  conv_rhs => rw [← List.take_append_drop n l]
  rw [List.countP_append]
  omega

/-- C6: raising the minimum depth never increases how many columns are
emitted; lowering the maximum depth never increases a column's total
(methylated plus unmethylated) count; and the admitted reads of a column are
the first maxDepth ones (first-N policy). -/
theorem depth_bounds_monotone (mnD mnD' mxD mxD' : Nat) (mg : Bool)
    (cols : List (List PileRead)) (reads : List PileRead)
    (hmin : mnD ≤ mnD') (hmax : mxD' ≤ mxD) :
    emittedCount ⟨mxD, mnD', mg⟩ cols ≤ emittedCount ⟨mxD, mnD, mg⟩ cols ∧
    colTotal ⟨mxD', mnD, mg⟩ reads ≤ colTotal ⟨mxD, mnD, mg⟩ reads ∧
    admitted ⟨mxD, mnD, mg⟩ reads = reads.take mxD := by
  refine ⟨?_, ?_, rfl⟩
  · apply List.countP_mono_left
    intro c _ hc
    simp only [emitted, admitted, decide_eq_true_eq] at hc ⊢
    omega
  · have h1 : (reads.take mxD).take mxD' = reads.take mxD' := by
      rw [List.take_take, inf_eq_left.mpr hmax]
    calc colTotal ⟨mxD', mnD, mg⟩ reads
        = ((reads.take mxD).take mxD').countP (fun r => r.call.isSome) := by
          rw [h1]; rfl
      _ ≤ (reads.take mxD).countP (fun r => r.call.isSome) :=
          countP_take_le _ mxD' (reads.take mxD)
      _ = colTotal ⟨mxD, mnD, mg⟩ reads := rfl

/-- Witness for `depth_bounds_monotone` on a two-column stream and a
three-read column. -/
theorem depth_bounds_monotone_witness :
    emittedCount ⟨3, 2, false⟩ [[⟨1, some true⟩], [⟨1, some true⟩, ⟨2, some false⟩]] ≤
      emittedCount ⟨3, 1, false⟩ [[⟨1, some true⟩], [⟨1, some true⟩, ⟨2, some false⟩]] ∧
    colTotal ⟨1, 1, false⟩ [⟨1, some true⟩, ⟨2, some false⟩, ⟨1, none⟩] ≤
      colTotal ⟨3, 1, false⟩ [⟨1, some true⟩, ⟨2, some false⟩, ⟨1, none⟩] ∧
    admitted ⟨3, 1, false⟩ [⟨1, some true⟩, ⟨2, some false⟩, ⟨1, none⟩] =
      [⟨1, some true⟩, ⟨2, some false⟩, ⟨1, none⟩].take 3 :=
  depth_bounds_monotone 1 2 3 1 false
    [[⟨1, some true⟩], [⟨1, some true⟩, ⟨2, some false⟩]]
    [⟨1, some true⟩, ⟨2, some false⟩, ⟨1, none⟩] (by decide) (by decide)

/-! ## Metrics Store (strandMeth) -/

/-- The strandMeth structure of PileOMeth.h: current length, capacity, and
the two unmethylated and two methylated count arrays. -/
structure strandMeth where
  l : Nat
  m : Nat
  unmeth1 : List Nat
  unmeth2 : List Nat
  meth1 : List Nat
  meth2 : List Nat
deriving DecidableEq

/-- The buffer invariant: the length field does not exceed the capacity and
all four arrays hold exactly `l` entries. -/
def smWF (s : strandMeth) : Prop :=
  s.l ≤ s.m ∧ s.unmeth1.length = s.l ∧ s.unmeth2.length = s.l ∧
    s.meth1.length = s.l ∧ s.meth2.length = s.l

/-- Modelled from the spec: appending one output position's counts to the
growable Strand Methylation Buffer (the aggregation loop bodies are not
among the sources); a full buffer grows before the four pushes. -/
def smAppend (s : strandMeth) (u1 u2 m1 m2 : Nat) : strandMeth :=
  { l := s.l + 1
    m := if s.l < s.m then s.m else 2 * s.m + 1
    unmeth1 := s.unmeth1 ++ [u1]
    unmeth2 := s.unmeth2 ++ [u2]
    meth1 := s.meth1 ++ [m1]
    meth2 := s.meth2 ++ [m2] }

/-- C10: the four count arrays share the single length field, the length
stays within the capacity, and an append keeps the invariant while extending
the shared length by one, leaving all four arrays defined at every index
below it. -/
theorem strandMeth_append_invariant (s : strandMeth) (u1 u2 m1 m2 : Nat)
    (h : smWF s) :
    smWF (smAppend s u1 u2 m1 m2) ∧ (smAppend s u1 u2 m1 m2).l = s.l + 1 ∧
    ∀ i < (smAppend s u1 u2 m1 m2).l,
      i < (smAppend s u1 u2 m1 m2).unmeth1.length ∧
      i < (smAppend s u1 u2 m1 m2).unmeth2.length ∧
      i < (smAppend s u1 u2 m1 m2).meth1.length ∧
      i < (smAppend s u1 u2 m1 m2).meth2.length := by
  obtain ⟨hlm, h1, h2, h3, h4⟩ := h
  refine ⟨⟨?_, ?_, ?_, ?_, ?_⟩, rfl, ?_⟩
  · show (smAppend s u1 u2 m1 m2).l ≤ (smAppend s u1 u2 m1 m2).m
    simp only [smAppend]
    split <;> omega
  · simp only [smAppend, List.length_append, List.length_cons, List.length_nil]
    omega
  · simp only [smAppend, List.length_append, List.length_cons, List.length_nil]
    omega
  · simp only [smAppend, List.length_append, List.length_cons, List.length_nil]
    omega
  · simp only [smAppend, List.length_append, List.length_cons, List.length_nil]
    omega
  · intro i hi
    simp only [smAppend, List.length_append, List.length_cons,
      List.length_nil] at hi ⊢
    exact ⟨by omega, by omega, by omega, by omega⟩

/-- Witness for `strandMeth_append_invariant`: appending to the empty
buffer. -/
theorem strandMeth_append_invariant_witness :
    smWF (smAppend ⟨0, 0, [], [], [], []⟩ 1 2 3 4) ∧
    (smAppend ⟨0, 0, [], [], [], []⟩ 1 2 3 4).l = 1 :=
  ⟨(strandMeth_append_invariant ⟨0, 0, [], [], [], []⟩ 1 2 3 4
      ⟨Nat.le_refl 0, rfl, rfl, rfl, rfl⟩).1,
   (strandMeth_append_invariant ⟨0, 0, [], [], [], []⟩ 1 2 3 4
      ⟨Nat.le_refl 0, rfl, rfl, rfl, rfl⟩).2.1⟩

end PileOMeth
